import Mathlib

/-!
Verification development for the ReconPro passive-reconnaissance script
(`Recon.py`).  The Python source is shallowly embedded: strings are Lean
`String`s (with most computation on their underlying `List Char` data),
Python sets are lists managed with a membership-checking `setAdd`, the
regular-expression rules of the sensitivity matcher are embedded as an
explicit regex AST with an executable backtracking matcher, and the
persisted wordlist files are modelled by their list of lines (the file
content being the lines joined with a single newline, exactly as written
by `"\n".join`).  File-system state for the top-level driver is a finite
map from path to line list.  All definitions are executable.
-/

/-! ## Python-style string ordering (lexicographic by code point)

Python compares strings lexicographically by Unicode code point; Lean's
built-in `String` order is the same order but its comparison function does
not reduce in the kernel, so we define our own on the character list. -/

def pyLtL : List Char → List Char → Bool
  | [], [] => false
  | [], _ :: _ => true
  | _ :: _, [] => false
  | a :: as, b :: bs => if a < b then true else if a = b then pyLtL as bs else false

theorem pyLtL_irrefl (l : List Char) : pyLtL l l = false := by
  induction l with
  | nil => rfl
  | cons a as ih => simp [pyLtL, ih]

theorem pyLtL_asymm (a b : List Char) (h : pyLtL a b = true) : pyLtL b a = false := by
  induction a generalizing b with
  | nil =>
    cases b with
    | nil => simp [pyLtL] at h
    | cons c cs => simp [pyLtL]
  | cons x xs ih =>
    cases b with
    | nil => simp [pyLtL] at h
    | cons y ys =>
      simp only [pyLtL] at h ⊢
      split at h
      · next hlt =>
        rw [if_neg (lt_asymm hlt), if_neg (fun hy => absurd hy (ne_of_gt hlt))]
      · next hlt =>
        split at h
        · next heq => subst heq; simp [if_neg hlt, ih _ h]
        · simp at h

theorem pyLtL_total (a b : List Char) (hne : a ≠ b) : pyLtL a b = true ∨ pyLtL b a = true := by
  induction a generalizing b with
  | nil =>
    cases b with
    | nil => exact absurd rfl hne
    | cons c cs => left; simp [pyLtL]
  | cons x xs ih =>
    cases b with
    | nil => right; simp [pyLtL]
    | cons y ys =>
      rcases lt_trichotomy x y with hlt | heq | hgt
      · left; simp [pyLtL, hlt]
      · subst heq
        have hne' : xs ≠ ys := fun h => hne (by rw [h])
        rcases ih ys hne' with h | h
        · left; simp [pyLtL, h, lt_irrefl]
        · right; simp [pyLtL, h, lt_irrefl]
      · right; simp [pyLtL, hgt]

theorem pyLtL_trans (a b c : List Char) (hab : pyLtL a b = true) (hbc : pyLtL b c = true) :
    pyLtL a c = true := by
  induction a generalizing b c with
  | nil =>
    cases c with
    | nil =>
      cases b with
      | nil => simp [pyLtL] at hab
      | cons y ys => simp [pyLtL] at hbc
    | cons z zs => simp [pyLtL]
  | cons x xs ih =>
    cases b with
    | nil => simp [pyLtL] at hab
    | cons y ys =>
      cases c with
      | nil => simp [pyLtL] at hbc
      | cons z zs =>
        simp only [pyLtL] at hab hbc ⊢
        split at hab
        · next hxy =>
          split at hbc
          · next hyz => simp [if_pos (lt_trans hxy hyz)]
          · next hyz =>
            split at hbc
            · next heq => subst heq; simp [hxy]
            · simp at hbc
        · next hxy =>
          split at hab
          · next heq =>
            subst heq
            split at hbc
            · next hyz => simp [hyz]
            · next hyz =>
              split at hbc
              · next heq2 => subst heq2; simp [hxy, ih _ _ hab hbc]
              · simp at hbc
          · simp at hab

/-- The Python `<=` order on strings (code-point lexicographic). -/
def pyLe (a b : String) : Prop := pyLtL b.data a.data = false

instance : DecidableRel pyLe := fun a b => by unfold pyLe; infer_instance

theorem stringDataInj {a b : String} (h : a.data = b.data) : a = b := by
  cases a; cases b; cases h; rfl

instance : IsTrans String pyLe where
  trans := by
    intro a b c hab hbc
    unfold pyLe at *
    cases hca : pyLtL c.data a.data with
    | false => rfl
    | true =>
      rcases Decidable.eq_or_ne c.data b.data with heq | hne
      · rw [heq] at hca; exact absurd hca (by simp [hab])
      · rcases pyLtL_total c.data b.data hne with h | h
        · exact absurd h (by simp [hbc])
        · have := pyLtL_trans b.data c.data a.data h hca
          exact absurd this (by simp [hab])

instance : IsAntisymm String pyLe where
  antisymm := by
    intro a b hab hba
    unfold pyLe at *
    by_contra hne
    have hne' : a.data ≠ b.data := fun h => hne (stringDataInj h)
    rcases pyLtL_total a.data b.data hne' with h | h
    · exact absurd h (by simp [hba])
    · exact absurd h (by simp [hab])

instance : IsTotal String pyLe where
  total := by
    intro a b
    unfold pyLe
    cases h : pyLtL b.data a.data with
    | false => exact Or.inl rfl
    | true => exact Or.inr (pyLtL_asymm _ _ h)

/-- Python `sorted(set(xs))`: sorted, duplicate-free list of the members. -/
def py_sorted_set (l : List String) : List String := List.insertionSort pyLe l.dedup

theorem mem_py_sorted_set (a : String) (l : List String) :
    a ∈ py_sorted_set l ↔ a ∈ l := by
  unfold py_sorted_set
  rw [(List.perm_insertionSort pyLe l.dedup).mem_iff, List.mem_dedup]

theorem py_sorted_set_sorted (l : List String) : List.Sorted pyLe (py_sorted_set l) :=
  List.sorted_insertionSort pyLe l.dedup

theorem py_sorted_set_nodup (l : List String) : (py_sorted_set l).Nodup :=
  ((List.perm_insertionSort pyLe l.dedup).nodup_iff).2 l.nodup_dedup

theorem py_sorted_set_ext (l₁ l₂ : List String) (h : ∀ a, a ∈ l₁ ↔ a ∈ l₂) :
    py_sorted_set l₁ = py_sorted_set l₂ := by
  have hperm : List.Perm l₁.dedup l₂.dedup := by
    rw [List.perm_ext_iff_of_nodup l₁.nodup_dedup l₂.nodup_dedup]
    intro a
    rw [List.mem_dedup, List.mem_dedup]
    exact h a
  exact List.eq_of_perm_of_sorted
    (((List.perm_insertionSort pyLe l₁.dedup).trans hperm).trans
      (List.perm_insertionSort pyLe l₂.dedup).symm)
    (py_sorted_set_sorted l₁) (py_sorted_set_sorted l₂)

/-! ## Basic Python string helpers -/

/-- Characters stripped by Python's argument-less `str.strip()`: exactly
the characters accepted by `str.isspace()` — ASCII whitespace, the
information separators `\x1c`–`\x1f`, NEL `\x85`, and the Unicode space
characters U+00A0, U+1680, U+2000–U+200A, U+2028, U+2029, U+202F,
U+205F and U+3000. -/
def isPySpace (c : Char) : Bool :=
  c = ' ' ∨ c = '\t' ∨ c = '\n' ∨ c = '\r' ∨ c = '\x0b' ∨ c = '\x0c' ∨
    c = '\x1c' ∨ c = '\x1d' ∨ c = '\x1e' ∨ c = '\x1f' ∨ c = '\x85' ∨
    c = '\u00A0' ∨ c = '\u1680' ∨ ('\u2000' ≤ c ∧ c ≤ '\u200A') ∨
    c = '\u2028' ∨ c = '\u2029' ∨ c = '\u202F' ∨ c = '\u205F' ∨ c = '\u3000'

/-- Python `s.strip()`. -/
def pyStripWS (s : String) : String :=
  ⟨((s.data.dropWhile isPySpace).reverse.dropWhile isPySpace).reverse⟩

/-- Python `s.strip(c)` for a single strip character. -/
def pyStripChar (s : String) (c : Char) : String :=
  ⟨((s.data.dropWhile (· = c)).reverse.dropWhile (· = c)).reverse⟩

/-- Python `s.split(sep)` for a one-character separator: splits on every
occurrence and keeps empty pieces; the result is never empty. -/
def splitc (c : Char) : List Char → List (List Char)
  | [] => [[]]
  | d :: t =>
    match splitc c t with
    | [] => [[]]
    | cur :: rest => if d = c then [] :: cur :: rest else (d :: cur) :: rest

theorem splitc_ne_nil (c : Char) (l : List Char) : splitc c l ≠ [] := by
  induction l with
  | nil => simp [splitc]
  | cons d t ih =>
    simp only [splitc]
    cases h : splitc c t with
    | nil => exact absurd h ih
    | cons cur rest => by_cases hd : d = c <;> simp [hd]

/-- Python `s.split(sep)` (single-character separator), as strings. -/
def pySplit (s : String) (c : Char) : List String :=
  (splitc c s.data).map (fun l => ⟨l⟩)

theorem pySplit_ne_nil (s : String) (c : Char) : pySplit s c ≠ [] := by
  unfold pySplit
  intro h
  exact splitc_ne_nil c s.data (List.map_eq_nil_iff.mp h)

/-- Split a character list at the first occurrence of `c`
(Python `s.split(c, 1)` when it returns two pieces). -/
def splitFirst (c : Char) : List Char → Option (List Char × List Char)
  | [] => none
  | d :: t =>
    if d = c then some ([], t)
    else
      match splitFirst c t with
      | none => none
      | some (a, b) => some (d :: a, b)

/-- Split at the last occurrence of `c`. -/
def splitLast (c : Char) (l : List Char) : Option (List Char × List Char) :=
  match splitFirst c l.reverse with
  | none => none
  | some (ra, rb) => some (rb.reverse, ra.reverse)

/-- Lower-case an ASCII character (Python `str.lower()` restricted to the
ASCII range, which is all the corpus and all the patterns use). -/
def lowerChar (c : Char) : Char :=
  if 'A' ≤ c ∧ c ≤ 'Z' then Char.ofNat (c.toNat + 32) else c

/-- Python `s.lower()` (ASCII). -/
def pyLower (s : String) : String := ⟨s.data.map lowerChar⟩

/-- Python `suffix in`-style test `s.endswith(suffix)`. -/
def pyEndsWith (s suffix : String) : Bool := List.isSuffixOf suffix.data s.data

/-- Python `s.endswith(c)` for a single character: the last character is `c`. -/
def pyEndsWithChar (s : String) (c : Char) : Bool := s.data.getLast? == some c

/-- Python `needle in haystack` substring containment. -/
def containsSub (needle : List Char) : List Char → Bool
  | [] => List.isPrefixOf needle []
  | d :: t => List.isPrefixOf needle (d :: t) || containsSub needle t

/-- Python `needle in haystack` on strings. -/
def pyIn (needle haystack : String) : Bool := containsSub needle.data haystack.data

/-- Python `s.replace(a, b)` for single characters. -/
def pyReplaceChar (s : String) (a b : Char) : String :=
  ⟨s.data.map (fun c => if c = a then b else c)⟩

/-- Python set modelled as a duplicate-free list: `set.add`. -/
def setAdd (l : List String) (x : String) : List String :=
  if x ∈ l then l else x :: l

theorem mem_setAdd (a x : String) (l : List String) :
    a ∈ setAdd l x ↔ a = x ∨ a ∈ l := by
  unfold setAdd
  split
  · next h => constructor
              · exact fun ha => Or.inr ha
              · rintro (rfl | ha)
                · exact h
                · exact ha
  · simp [or_comm]

/-- Python `set.update(items)` / adding many elements. -/
def setAddAll (l : List String) (items : List String) : List String :=
  items.foldl setAdd l

theorem mem_setAddAll (a : String) (l items : List String) :
    a ∈ setAddAll l items ↔ a ∈ l ∨ a ∈ items := by
  unfold setAddAll
  induction items generalizing l with
  | nil => simp
  | cons x xs ih =>
    simp only [List.foldl_cons, ih, mem_setAdd, List.mem_cons]
    tauto

/-! ## Regex engine

The sensitivity matcher applies `re.search` with `(?i)` patterns.  The
patterns only use literals, alternation `(a|b)`, the optional quantifier
`x?`, the any-character-plus form `.+`, and the end anchor `$`, so the AST
below covers exactly those constructs.  `(?i)` case-insensitivity is
realised by lower-casing the subject string and writing the pattern
literals in lower case, which agrees with Python for ASCII input. -/

inductive RE where
  | fail : RE
  | eps : RE
  | lit : Char → RE
  | anyPlus : RE
  | eos : RE
  | opt : RE → RE
  | alt : RE → RE → RE
  | seq : RE → RE → RE

/-- Matcher for `.+`: consume one or more characters other than newline,
then try the continuation. -/
def anyPlusTail (k : List Char → Bool) : List Char → Bool
  | [] => false
  | d :: t => (d != '\n') && (k t || anyPlusTail k t)

/-- Backtracking matcher in continuation-passing style: `reMatch r s k`
holds when some prefix of `s` matches `r` and `k` accepts the remainder. -/
def reMatch : RE → List Char → (List Char → Bool) → Bool
  | .fail, _, _ => false
  | .eps, s, k => k s
  | .lit c, s, k =>
    match s with
    | [] => false
    | d :: t => (c == d) && k t
  | .anyPlus, s, k => anyPlusTail k s
  | .eos, s, k => s.isEmpty && k s
  | .opt a, s, k => k s || reMatch a s k
  | .alt a b, s, k => reMatch a s k || reMatch b s k
  | .seq a b, s, k => reMatch a s (fun t => reMatch b t k)

/-- `re.search` semantics: try a match starting at every position. -/
def reSearchAux (r : RE) : List Char → Bool
  | [] => reMatch r [] (fun _ => true)
  | d :: t => reMatch r (d :: t) (fun _ => true) || reSearchAux r t

/-- Case-insensitive `re.search(pattern, s)` for an all-lower-case pattern. -/
def reSearchCI (r : RE) (s : String) : Bool := reSearchAux r (s.data.map lowerChar)

/-- A literal string as a regex. -/
def rstr (s : String) : RE := s.data.foldr (fun c r => RE.seq (RE.lit c) r) RE.eps

/-- n-ary alternation. -/
def ralt (l : List RE) : RE :=
  match l with
  | [] => RE.fail
  | h :: t => t.foldl RE.alt h

/-- Alternation of literal words. -/
def rwords (l : List String) : RE := ralt (l.map rstr)

/-- n-ary concatenation. -/
def rseq (l : List RE) : RE := l.foldr RE.seq RE.eps

/-- The group `(/|$)`. -/
def slashOrEnd : RE := RE.alt (RE.lit '/') RE.eos

/-- The leading `/?`. -/
def optSlash : RE := RE.opt (RE.lit '/')

/-- The group `(\..+|/|$)`. -/
def dotRestSlashOrEnd : RE := ralt [RE.seq (RE.lit '.') RE.anyPlus, RE.lit '/', RE.eos]

/-! The 18 entries of `sensitive_path_patterns`, transcribed rule by rule
from the regex literals in the source (all carry `(?i)`, handled by
`reSearchCI`). -/

/-- `(?i)/?(admin|administrator|wp-admin|cpanel|dashboard|panel|console)(/|$)` -/
def pat1 : RE :=
  rseq [optSlash,
    rwords ["admin", "administrator", "wp-admin", "cpanel", "dashboard", "panel", "console"],
    slashOrEnd]

/-- `(?i)/(login|signin|auth|authentication)(/|\.php|\.asp|\.jsp|\.html|$)` -/
def pat2 : RE :=
  rseq [RE.lit '/', rwords ["login", "signin", "auth", "authentication"],
    ralt [RE.lit '/', rstr ".php", rstr ".asp", rstr ".jsp", rstr ".html", RE.eos]]

/-- `(?i)/?(config|configuration|settings|setup|install|system_setup)(\..+|/|$)` -/
def pat3 : RE :=
  rseq [optSlash,
    rwords ["config", "configuration", "settings", "setup", "install", "system_setup"],
    dotRestSlashOrEnd]

/-- `(?i)/?(secret|private|internal|hidden|secure|vault)(/|$)` -/
def pat4 : RE :=
  rseq [optSlash, rwords ["secret", "private", "internal", "hidden", "secure", "vault"],
    slashOrEnd]

/-- `(?i)/?(backup|bak|bkp|old|archive)(\..+|/|$)` -/
def pat5 : RE :=
  rseq [optSlash, rwords ["backup", "bak", "bkp", "old", "archive"], dotRestSlashOrEnd]

/-- `(?i)/?(debug|dev|test|staging|sandbox|beta)(/|$)` -/
def pat6 : RE :=
  rseq [optSlash, rwords ["debug", "dev", "test", "staging", "sandbox", "beta"], slashOrEnd]

/-- `(?i)/?(database|db|sql|dump|mysql|mongo)(\..+|/|$)` -/
def pat7 : RE :=
  rseq [optSlash, rwords ["database", "db", "sql", "dump", "mysql", "mongo"], dotRestSlashOrEnd]

/-- `(?i)/?.+\.(sql|sqlite|json|csv|zip|gz|bak|tar|7z|rar|bkp)$` -/
def pat8 : RE :=
  rseq [optSlash, RE.anyPlus, RE.lit '.',
    rwords ["sql", "sqlite", "json", "csv", "zip", "gz", "bak", "tar", "7z", "rar", "bkp"],
    RE.eos]

/-- `(?i)/?.+\.(bak|bkp|backup|old|tmp|temp)$` -/
def pat9 : RE :=
  rseq [optSlash, RE.anyPlus, RE.lit '.',
    rwords ["bak", "bkp", "backup", "old", "tmp", "temp"], RE.eos]

/-- `(?i)/?(logs?|debug|trace|error)(\.txt|\.log|\.json|\.csv|/|$)` -/
def pat10 : RE :=
  rseq [optSlash,
    ralt [RE.seq (rstr "log") (RE.opt (RE.lit 's')), rstr "debug", rstr "trace", rstr "error"],
    ralt [rstr ".txt", rstr ".log", rstr ".json", rstr ".csv", RE.lit '/', RE.eos]]

/-- `(?i)/?(env|\.env|\.env\.local|\.env\.dev|\.env\.example|\.env\.backup)$` -/
def pat11 : RE :=
  rseq [optSlash,
    rwords ["env", ".env", ".env.local", ".env.dev", ".env.example", ".env.backup"], RE.eos]

/-- `(?i)/?.+\.(pem|cert|crt|key|pfx|p12|cer|der|jks|keystore)$` -/
def pat12 : RE :=
  rseq [optSlash, RE.anyPlus, RE.lit '.',
    rwords ["pem", "cert", "crt", "key", "pfx", "p12", "cer", "der", "jks", "keystore"], RE.eos]

/-- `(?i)/?.+\.(c|cpp|java|py|rb|go|sh|pl|php|jsp|asp|lua|swift)$` -/
def pat13 : RE :=
  rseq [optSlash, RE.anyPlus, RE.lit '.',
    rwords ["c", "cpp", "java", "py", "rb", "go", "sh", "pl", "php", "jsp", "asp", "lua",
      "swift"], RE.eos]

/-- `(?i)/?.+\.(sh|ps1|bat|cmd|cgi)$` -/
def pat14 : RE :=
  rseq [optSlash, RE.anyPlus, RE.lit '.', rwords ["sh", "ps1", "bat", "cmd", "cgi"], RE.eos]

/-- `(?i)/?(wp-content|wp-includes|joomla|drupal|cms|magento)(/|$)` -/
def pat15 : RE :=
  rseq [optSlash, rwords ["wp-content", "wp-includes", "joomla", "drupal", "cms", "magento"],
    slashOrEnd]

/-- `(?i)/?(readme|license|changelog|todo|notes?|info)(\.md|\.txt|\.html|/|$)` -/
def pat16 : RE :=
  rseq [optSlash,
    ralt [rstr "readme", rstr "license", rstr "changelog", rstr "todo",
      RE.seq (rstr "note") (RE.opt (RE.lit 's')), rstr "info"],
    ralt [rstr ".md", rstr ".txt", rstr ".html", RE.lit '/', RE.eos]]

/-- `(?i)/?(\.git|\.svn|\.hg|\.bzr|\.cvs|\.DS_Store|\.idea|\.vscode)(/|$)` -/
def pat17 : RE :=
  rseq [optSlash,
    rwords [".git", ".svn", ".hg", ".bzr", ".cvs", ".ds_store", ".idea", ".vscode"],
    slashOrEnd]

/-- `(?i)/?(robots\.txt|crossdomain\.xml|sitemap\.xml|phpinfo\.php|index\.php\?info)(/|$)` -/
def pat18 : RE :=
  rseq [optSlash,
    rwords ["robots.txt", "crossdomain.xml", "sitemap.xml", "phpinfo.php", "index.php?info"],
    slashOrEnd]

/-- The global `sensitive_path_patterns` list, in source order. -/
def sensitive_path_patterns : List RE :=
  [pat1, pat2, pat3, pat4, pat5, pat6, pat7, pat8, pat9, pat10, pat11, pat12, pat13, pat14,
    pat15, pat16, pat17, pat18]

/-- `is_sensitive_path(path)`: `re.search` of every pattern, any match wins. -/
def is_sensitive_path (path : String) : Bool :=
  sensitive_path_patterns.any (fun r => reSearchCI r path)

/-! ## File classification -/

/-- The `extension_categories` table, in declaration order. -/
def extension_categories : List (String × List String) :=
  [("js", [".js"]),
   ("json", [".json"]),
   ("php", [".php"]),
   ("asp", [".asp", ".aspx"]),
   ("jsp", [".jsp"]),
   ("html", [".html", ".htm"]),
   ("txt", [".txt", ".log"]),
   ("xml", [".xml"]),
   ("sql", [".sql"]),
   ("config", [".conf", ".config", ".ini", ".env"]),
   ("zip", [".zip", ".tar", ".gz", ".rar", ".7z"]),
   ("bak", [".bak", ".old", ".backup"]),
   ("css", [".css"])]

/-- `is_file_path(path)`: the last `/`-separated component contains a dot. -/
def is_file_path (path : String) : Bool :=
  '.' ∈ ((splitc '/' path.data).getLastD [])

/-- The loop body of `categorize_file`: first matching table entry wins. -/
def categorize_go (path : String) : List (String × List String) → String
  | [] => "others"
  | (cat, exts) :: rest =>
    if exts.any (fun e => pyEndsWith (pyLower path) e) then cat else categorize_go path rest

/-- `categorize_file(path)`. -/
def categorize_file (path : String) : String := categorize_go path extension_categories

theorem categorize_go_eq_find (path : String) (l : List (String × List String)) :
    categorize_go path l =
      ((l.find? (fun pr => pr.2.any (fun e => pyEndsWith (pyLower path) e))).map
        Prod.fst).getD "others" := by
  induction l with
  | nil => rfl
  | cons pr rest ih =>
    obtain ⟨cat, exts⟩ := pr
    simp only [categorize_go, List.find?]
    by_cases h : (exts.any (fun e => pyEndsWith (pyLower path) e)) = true
    · simp [h]
    · simp only [Bool.not_eq_true] at h
      simp [h, ih]

/-- C4 — The sensitivity matcher accepts `/wp-admin/`, `/.git/config`,
`/backup.sql` and `/app.env`, and rejects `/home/about-us/`. -/
theorem c4_sensitivity_examples :
    is_sensitive_path "/wp-admin/" = true ∧
    is_sensitive_path "/.git/config" = true ∧
    is_sensitive_path "/backup.sql" = true ∧
    is_sensitive_path "/app.env" = true ∧
    is_sensitive_path "/home/about-us/" = false := by
  refine ⟨?_, ?_, ?_, ?_, ?_⟩ <;> decide

/-- C5 — `categorize_file` returns the first category of the declared table
whose suffix list contains a case-insensitive suffix of the path, and
`others` when no entry matches; the result is a pure function of the path
string alone. -/
theorem c5_categorize_first_match (path : String) :
    categorize_file path =
      ((extension_categories.find?
          (fun pr => pr.2.any (fun e => pyEndsWith (pyLower path) e))).map
        Prod.fst).getD "others" :=
  categorize_go_eq_find path extension_categories

/-! ## URL decomposition (model of CPython `urllib.parse.urlparse`)

The source feeds `url.strip()` to `urlparse`.  The model follows the
CPython algorithm: sanitisation (strip leading C0-control/space, remove
tab/CR/LF anywhere), scheme recognition, `//`-authority extraction with
the `Invalid IPv6 URL` check for unbalanced square brackets, fragment and
query splitting, and the `urlparse`-level `;parameter` split for schemes
in `uses_params`.  CPython has two further `ValueError` paths that fire
only for authorities containing non-ASCII characters or brackets: the
`_checknetloc` NFKC-normalisation check (for example an authority with a
full-width commercial at, U+FF20, raises) and the bracketed-host
validation of the newest releases.  Both require the Unicode
normalisation tables and are not embedded, so the model is faithful for
ASCII lines and the no-raise theorem below restricts itself to ASCII
input. -/

structure UrlParts where
  scheme : String
  netloc : String
  path : String
  params : String
  query : String
  fragment : String
deriving DecidableEq

def isAsciiAlpha (c : Char) : Bool :=
  ('a' ≤ c ∧ c ≤ 'z') ∨ ('A' ≤ c ∧ c ≤ 'Z')

def isAsciiDigit (c : Char) : Bool := '0' ≤ c ∧ c ≤ '9'

def isSchemeChar (c : Char) : Bool :=
  isAsciiAlpha c || isAsciiDigit c || c = '+' || c = '-' || c = '.'

/-- CPython sanitisation: `lstrip` of C0 controls and space, then removal
of every tab, carriage return and line feed. -/
def sanitizeUrl (l : List Char) : List Char :=
  (l.dropWhile (fun c => c.toNat ≤ 0x20)).filter (fun c => !(c = '\t' ∨ c = '\r' ∨ c = '\n'))

/-- Scheme recognition: a leading `name:` whose name starts with an ASCII
letter and consists of scheme characters is split off; otherwise the URL
is left untouched (colon included). -/
def splitScheme (l : List Char) : List Char × List Char :=
  match splitFirst ':' l with
  | none => ([], l)
  | some (before, after) =>
    match before with
    | [] => ([], l)
    | b :: bs =>
      if isAsciiAlpha b && (b :: bs).all isSchemeChar then (b :: bs, after) else ([], l)

/-- Authority extraction: after a leading `//`, the netloc runs until the
first `/`, `?` or `#`; the delimiter stays in the remainder. -/
def netlocSplit (l : List Char) : List Char × List Char :=
  match l with
  | '/' :: '/' :: rest =>
    (rest.takeWhile (fun c => !(c = '/' ∨ c = '?' ∨ c = '#')),
     rest.dropWhile (fun c => !(c = '/' ∨ c = '?' ∨ c = '#')))
  | _ => ([], l)

/-- CPython `_splitparams`: split `;params` off the last path segment. -/
def splitParams (l : List Char) : List Char × List Char :=
  match splitLast '/' l with
  | some (pre, lastSeg) =>
    (match splitFirst ';' lastSeg with
     | none => (l, [])
     | some (a, b) => (pre ++ '/' :: a, b))
  | none =>
    (match splitFirst ';' l with
     | none => (l, [])
     | some (a, b) => (a, b))

/-- The schemes for which `urlparse` performs the `;parameter` split. -/
def uses_params : List String :=
  ["", "ftp", "hdl", "prospero", "http", "imap", "https", "shttp", "rtsp", "rtspu", "sip",
   "sips", "mms", "sftp", "tel"]

/-- The sanitised URL with any scheme removed. -/
def rawSchemeSplit (url : String) : List Char × List Char :=
  splitScheme (sanitizeUrl url.data)

/-- The authority substring examined by the bracket check. -/
def rawNetloc (url : String) : List Char := (netlocSplit (rawSchemeSplit url).2).1

/-- Model of `urllib.parse.urlparse`: either the six components or the
`ValueError` CPython raises for an authority with unbalanced brackets
(the error paths for non-ASCII authorities are outside the model; see the
section comment). -/
def pyUrlparse (url : String) : Except String UrlParts :=
  let netloc := rawNetloc url
  if ('[' ∈ netloc ∧ ']' ∉ netloc) ∨ (']' ∈ netloc ∧ '[' ∉ netloc) then
    .error "Invalid IPv6 URL"
  else
    let scheme := (rawSchemeSplit url).1.map lowerChar
    let rest1 := (netlocSplit (rawSchemeSplit url).2).2
    let fr :=
      match splitFirst '#' rest1 with
      | none => (rest1, ([] : List Char))
      | some ab => ab
    let qy :=
      match splitFirst '?' fr.1 with
      | none => (fr.1, ([] : List Char))
      | some ab => ab
    let pp :=
      if (⟨scheme⟩ : String) ∈ uses_params ∧ ';' ∈ qy.1 then splitParams qy.1
      else (qy.1, ([] : List Char))
    .ok ⟨⟨scheme⟩, ⟨netloc⟩, ⟨pp.1⟩, ⟨pp.2⟩, ⟨qy.2⟩, ⟨fr.2⟩⟩

/-! ## Query-string keys (model of `parse_qs(...).keys()`)

`parse_qs` splits on `&`, skips empty pairs, skips pairs without `=` and
pairs with an empty value (`keep_blank_values` is false), and decodes each
name with `+`-to-space replacement and percent-decoding (UTF-8 with
replacement on undecodable bytes; truncated multi-byte tails collapse to a
single replacement character in this model). -/

def hexVal (c : Char) : Option Nat :=
  if '0' ≤ c ∧ c ≤ '9' then some (c.toNat - 48)
  else if 'a' ≤ c ∧ c ≤ 'f' then some (c.toNat - 87)
  else if 'A' ≤ c ∧ c ≤ 'F' then some (c.toNat - 55)
  else none

/-- UTF-8 encoding of one character, as byte values. -/
def utf8Enc (c : Char) : List Nat :=
  let n := c.toNat
  if n < 0x80 then [n]
  else if n < 0x800 then [0xC0 + n / 0x40, 0x80 + n % 0x40]
  else if n < 0x10000 then [0xE0 + n / 0x1000, 0x80 + n / 0x40 % 0x40, 0x80 + n % 0x40]
  else [0xF0 + n / 0x40000, 0x80 + n / 0x1000 % 0x40, 0x80 + n / 0x40 % 0x40, 0x80 + n % 0x40]

/-- `unquote_to_bytes`: each valid `%XX` becomes one byte, an invalid `%`
stays literal, every other character contributes its UTF-8 bytes. -/
def pctBytes : List Char → List Nat
  | [] => []
  | '%' :: h1 :: h2 :: rest =>
    (match hexVal h1, hexVal h2 with
     | some a, some b => (a * 16 + b) :: pctBytes rest
     | _, _ => utf8Enc '%' ++ pctBytes (h1 :: h2 :: rest))
  | c :: rest => utf8Enc c ++ pctBytes rest

def isContByte (b : Nat) : Bool := 0x80 ≤ b ∧ b ≤ 0xBF

def replChar : Char := Char.ofNat 0xFFFD

def cont2ok (b b2 : Nat) : Bool :=
  if b = 0xE0 then 0xA0 ≤ b2 ∧ b2 ≤ 0xBF
  else if b = 0xED then 0x80 ≤ b2 ∧ b2 ≤ 0x9F
  else isContByte b2

def cont4ok (b b2 : Nat) : Bool :=
  if b = 0xF0 then 0x90 ≤ b2 ∧ b2 ≤ 0xBF
  else if b = 0xF4 then 0x80 ≤ b2 ∧ b2 ≤ 0x8F
  else isContByte b2

/-- UTF-8 decoding with the `replace` error handler (fuelled). -/
def utf8DecodeGo : Nat → List Nat → List Char
  | 0, _ => []
  | _ + 1, [] => []
  | fuel + 1, b :: rest =>
    if b < 0x80 then Char.ofNat b :: utf8DecodeGo fuel rest
    else if 0xC2 ≤ b ∧ b ≤ 0xDF then
      match rest with
      | b2 :: rest2 =>
        if isContByte b2 then
          Char.ofNat ((b - 0xC0) * 0x40 + (b2 - 0x80)) :: utf8DecodeGo fuel rest2
        else replChar :: utf8DecodeGo fuel rest
      | [] => [replChar]
    else if 0xE0 ≤ b ∧ b ≤ 0xEF then
      match rest with
      | b2 :: b3 :: rest3 =>
        if cont2ok b b2 && isContByte b3 then
          Char.ofNat ((b - 0xE0) * 0x1000 + (b2 - 0x80) * 0x40 + (b3 - 0x80)) ::
            utf8DecodeGo fuel rest3
        else replChar :: utf8DecodeGo fuel rest
      | _ => [replChar]
    else if 0xF0 ≤ b ∧ b ≤ 0xF4 then
      match rest with
      | b2 :: b3 :: b4 :: rest4 =>
        if cont4ok b b2 && isContByte b3 && isContByte b4 then
          Char.ofNat
              ((b - 0xF0) * 0x40000 + (b2 - 0x80) * 0x1000 + (b3 - 0x80) * 0x40 + (b4 - 0x80)) ::
            utf8DecodeGo fuel rest4
        else replChar :: utf8DecodeGo fuel rest
      | _ => [replChar]
    else replChar :: utf8DecodeGo fuel rest

/-- `urllib.parse.unquote` (percent-decoding; fast path when no `%`). -/
def unquote (s : String) : String :=
  if '%' ∈ s.data then ⟨utf8DecodeGo (pctBytes s.data).length (pctBytes s.data)⟩ else s

/-- The name decoding of `parse_qsl`: `+` to space, then `unquote`. -/
def unquote_plus (s : String) : String := unquote (pyReplaceChar s '+' ' ')

/-- The key list of `parse_qs(qs)` (with multiplicity; the caller adds the
keys to a set). -/
def parse_qs_keys (qs : String) : List String :=
  if qs.data = [] then []
  else
    (splitc '&' qs.data).filterMap (fun pair =>
      if pair = [] then none
      else
        match splitFirst '=' pair with
        | none => none
        | some (name, value) =>
          if value = [] then none else some (unquote_plus ⟨name⟩))

/-! ## The aggregation pass (`extract_dirs_files_params`) -/

structure AggState where
  directories : List String
  files : List String
  parameters : List String
  domains : List String
  categorized : List (String × List String)
  cms : List String
deriving DecidableEq

def initState : AggState := ⟨[], [], [], [], [], []⟩

/-- `defaultdict(set)` update: `categorized_files[category].add(path)`. -/
def catAdd (l : List (String × List String)) (c p : String) : List (String × List String) :=
  match l with
  | [] => [(c, [p])]
  | (c', s) :: rest => if c' = c then (c', setAdd s p) :: rest else (c', s) :: catAdd rest c p

/-- `path.strip("/").split("/")` — the segment list of the loop. -/
def path_parts (path : String) : List String := pySplit (pyStripChar path '/') '/'

/-- The directory prefixes generated by `for i in range(1, len(parts))`:
`"/" + "/".join(parts[:i]) + "/"`. -/
def prefix_dir_candidates (path : String) : List String :=
  (List.range' 1 ((path_parts path).length - 1)).map
    (fun i => "/" ++ String.intercalate "/" ((path_parts path).take i) ++ "/")

/-- `dir_cleaned = path if path.endswith("/") else path + "/"`. -/
def dir_cleaned (path : String) : String :=
  if pyEndsWithChar path '/' then path else path ++ "/"

/-- All directory candidates a processed path sends to the sensitivity
matcher: every proper prefix, plus the normalised full path when the path
does not denote a file. -/
def dir_candidates (path : String) : List String :=
  prefix_dir_candidates path ++ (if is_file_path path then [] else [dir_cleaned path])

/-- The per-URL body of the aggregation loop, after the empty/root-path
guard (lines 102–130 of the source). -/
def stepPath (st : AggState) (p : UrlParts) : AggState :=
  let path := p.path
  let st1 :=
    { st with directories := setAddAll st.directories ((prefix_dir_candidates path).filter is_sensitive_path) }
  let st2 :=
    if is_file_path path then
      if is_sensitive_path path then
        { st1 with files := setAdd st1.files path, categorized := catAdd st1.categorized (categorize_file path) path }
      else st1
    else
      if is_sensitive_path (dir_cleaned path) then
        { st1 with directories := setAdd st1.directories (dir_cleaned path) }
      else st1
  let st3 :=
    if pyIn "wp-admin" path || pyIn "wp-content" path then
      { st2 with cms := setAdd st2.cms "WordPress" }
    else st2
  let st4 :=
    if pyIn "public/index.php" path then { st3 with cms := setAdd st3.cms "Laravel" } else st3
  if p.query ≠ "" then
    { st4 with parameters := setAddAll st4.parameters (parse_qs_keys p.query) }
  else st4

/-- One loop iteration on parsed components: record the domain, then skip
an empty or root path, otherwise run the path body. -/
def stepCore (st : AggState) (p : UrlParts) : AggState :=
  let st1 := { st with domains := setAdd st.domains p.netloc }
  if p.path = "" ∨ p.path = "/" then st1 else stepPath st1 p

/-- One loop iteration on a raw line: `parsed = urlparse(url.strip())`. -/
def urlStep (st : AggState) (url : String) : Except String AggState :=
  (pyUrlparse (pyStripWS url)).map (stepCore st)

/-- The aggregation loop over the whole corpus; an uncaught `ValueError`
from `urlparse` aborts the remainder of the batch. -/
def runUrls (st : AggState) : List String → Except String AggState
  | [] => .ok st
  | u :: us =>
    match urlStep st u with
    | .error e => .error e
    | .ok st' => runUrls st' us

structure ReconResult where
  directories : List String
  files : List String
  parameters : List String
  domains : List String
  categorized : List (String × List String)
  cms : List String
deriving DecidableEq

/-- The value returned by `extract_dirs_files_params`: the four sets as
sorted lists, the category map and the CMS hit set as accumulated. -/
def finalizeState (st : AggState) : ReconResult :=
  ⟨py_sorted_set st.directories, py_sorted_set st.files, py_sorted_set st.parameters,
   py_sorted_set st.domains, st.categorized, st.cms⟩

def extract_dirs_files_params (urls : List String) : Except String ReconResult :=
  (runUrls initState urls).map finalizeState

/-! ## Helper lemmas about the aggregation primitives -/

theorem mem_of_mem_takeWhile {p : Char → Bool} {l : List Char} {a : Char}
    (h : a ∈ l.takeWhile p) : a ∈ l := by
  induction l with
  | nil => simp [List.takeWhile] at h
  | cons d t ih =>
    simp only [List.takeWhile] at h
    by_cases hd : p d
    · rw [hd] at h
      rcases List.mem_cons.mp h with rfl | h'
      · exact List.mem_cons_self _ _
      · exact List.mem_cons_of_mem _ (ih h')
    · simp [hd] at h

theorem mem_of_mem_dropWhile {p : Char → Bool} {l : List Char} {a : Char}
    (h : a ∈ l.dropWhile p) : a ∈ l := by
  induction l with
  | nil => simp [List.dropWhile] at h
  | cons d t ih =>
    simp only [List.dropWhile] at h
    by_cases hd : p d
    · rw [hd] at h
      exact List.mem_cons_of_mem _ (ih h)
    · simp only [Bool.not_eq_true] at hd
      rw [hd] at h
      exact h

theorem splitFirst_sub (c : Char) (l a b : List Char)
    (h : splitFirst c l = some (a, b)) : (∀ x ∈ a, x ∈ l) ∧ (∀ x ∈ b, x ∈ l) := by
  induction l generalizing a b with
  | nil => simp [splitFirst] at h
  | cons d t ih =>
    simp only [splitFirst] at h
    by_cases hd : d = c
    · rw [if_pos hd] at h
      injection h with h'
      obtain ⟨rfl, rfl⟩ := Prod.mk.injEq .. ▸ Prod.mk.inj h'
      exact ⟨fun x hx => absurd hx (List.not_mem_nil x),
             fun x hx => List.mem_cons_of_mem _ hx⟩
    · rw [if_neg hd] at h
      cases hrec : splitFirst c t with
      | none => rw [hrec] at h; simp at h
      | some ab =>
        obtain ⟨a', b'⟩ := ab
        rw [hrec] at h
        injection h with h'
        obtain ⟨ha, hb⟩ := Prod.mk.inj h'
        subst ha; subst hb
        obtain ⟨iha, ihb⟩ := ih a' b' hrec
        constructor
        · intro x hx
          rcases List.mem_cons.mp hx with rfl | hx'
          · exact List.mem_cons_self _ _
          · exact List.mem_cons_of_mem _ (iha x hx')
        · exact fun x hx => List.mem_cons_of_mem _ (ihb x hx)

theorem setAddAll_append (l xs ys : List String) :
    setAddAll l (xs ++ ys) = setAddAll (setAddAll l xs) ys := by
  simp [setAddAll, List.foldl_append]

/-- The candidate formula the specification states: `'/' + join(s1..si) + '/'`
for `i = 1..N-1` over the `N` segments. -/
def spec_prefix_candidates (path : String) : List String :=
  (List.range ((path_parts path).length - 1)).map
    (fun i => "/" ++ String.intercalate "/" ((path_parts path).take (i + 1)) ++ "/")

theorem prefix_candidates_eq_spec (path : String) :
    prefix_dir_candidates path = spec_prefix_candidates path := by
  unfold prefix_dir_candidates spec_prefix_candidates
  rw [List.range'_eq_map_range, List.map_map]
  exact List.map_congr_left (fun i _ => by simp [Nat.add_comm])

theorem path_parts_length_pos (path : String) : 0 < (path_parts path).length :=
  List.length_pos.mpr (pySplit_ne_nil _ _)

theorem stepCore_directories (st : AggState) (p : UrlParts)
    (h : ¬(p.path = "" ∨ p.path = "/")) :
    (stepCore st p).directories =
      setAddAll st.directories ((dir_candidates p.path).filter is_sensitive_path) := by
  simp only [stepCore, stepPath, if_neg h, dir_candidates, List.filter_append]
  split_ifs with hf hs hs <;>
    simp_all [setAddAll_append, setAddAll, List.filter]

/-- C1 — For a processed path (not empty, not the root), the loop tests
exactly the directory candidates of `dir_candidates` with the sensitivity
matcher and adds the accepted ones; a file path contributes the `N-1`
proper prefixes `'/' + join(s1..si) + '/'`, a directory path additionally
its own normalised form, `N` candidates in total; in particular
`/a/b/c.php` yields `/a/`, `/a/b/` and `/a/b/c/` yields `/a/`, `/a/b/`,
`/a/b/c/`. -/
theorem c1_directory_candidates (st : AggState) (p : UrlParts)
    (h1 : p.path ≠ "") (h2 : p.path ≠ "/") :
    (stepCore st p).directories =
        setAddAll st.directories ((dir_candidates p.path).filter is_sensitive_path) ∧
    (is_file_path p.path = true →
      dir_candidates p.path = spec_prefix_candidates p.path ∧
        (dir_candidates p.path).length = (path_parts p.path).length - 1) ∧
    (is_file_path p.path = false →
      dir_candidates p.path = spec_prefix_candidates p.path ++ [dir_cleaned p.path] ∧
        (dir_candidates p.path).length = (path_parts p.path).length) ∧
    dir_candidates "/a/b/c.php" = ["/a/", "/a/b/"] ∧
    dir_candidates "/a/b/c/" = ["/a/", "/a/b/", "/a/b/c/"] := by
  refine ⟨stepCore_directories st p (by simp [h1, h2]), ?_, ?_, by decide, by decide⟩
  · intro hf
    constructor
    · simp [dir_candidates, hf, prefix_candidates_eq_spec]
    · simp [dir_candidates, hf, prefix_dir_candidates]
  · intro hf
    constructor
    · simp [dir_candidates, hf, prefix_candidates_eq_spec]
    · have hpos := path_parts_length_pos p.path
      simp [dir_candidates, hf, prefix_dir_candidates]
      omega

/-- Witness for C1 at the file path `/a/b/c.php` starting from the empty
state. -/
theorem c1_directory_candidates_witness :
    (stepCore initState ⟨"", "", "/a/b/c.php", "", "", ""⟩).directories =
        setAddAll initState.directories
          ((dir_candidates "/a/b/c.php").filter is_sensitive_path) ∧
    (is_file_path "/a/b/c.php" = true →
      dir_candidates "/a/b/c.php" = spec_prefix_candidates "/a/b/c.php" ∧
        (dir_candidates "/a/b/c.php").length = (path_parts "/a/b/c.php").length - 1) ∧
    (is_file_path "/a/b/c.php" = false →
      dir_candidates "/a/b/c.php" = spec_prefix_candidates "/a/b/c.php" ++ [dir_cleaned "/a/b/c.php"] ∧
        (dir_candidates "/a/b/c.php").length = (path_parts "/a/b/c.php").length) ∧
    dir_candidates "/a/b/c.php" = ["/a/", "/a/b/"] ∧
    dir_candidates "/a/b/c/" = ["/a/", "/a/b/", "/a/b/c/"] :=
  c1_directory_candidates initState ⟨"", "", "/a/b/c.php", "", "", ""⟩ (by decide) (by decide)

/-! ## The aggregation fold: success decomposition and preservation -/

instance exceptDecEq {ε α : Type} [DecidableEq ε] [DecidableEq α] : DecidableEq (Except ε α) :=
  fun x y =>
    match x, y with
    | .error a, .error b =>
      if h : a = b then isTrue (by rw [h])
      else isFalse (fun hc => h (Except.error.inj hc))
    | .ok a, .ok b =>
      if h : a = b then isTrue (by rw [h])
      else isFalse (fun hc => h (Except.ok.inj hc))
    | .error _, .ok _ => isFalse (fun hc => Except.noConfusion hc)
    | .ok _, .error _ => isFalse (fun hc => Except.noConfusion hc)

theorem urlStep_ok {st st2 : AggState} {u : String} (h : urlStep st u = .ok st2) :
    ∃ parsed, pyUrlparse (pyStripWS u) = .ok parsed ∧ st2 = stepCore st parsed := by
  unfold urlStep at h
  cases hp : pyUrlparse (pyStripWS u) with
  | error e => rw [hp] at h; simp [Except.map] at h
  | ok parsed =>
    rw [hp] at h
    simp [Except.map] at h
    exact ⟨parsed, rfl, h.symm⟩

theorem runUrls_preserve (P : AggState → Prop)
    (hstep : ∀ st p, P st → P (stepCore st p)) :
    ∀ (us : List String) (st st' : AggState), runUrls st us = .ok st' → P st → P st' := by
  intro us
  induction us with
  | nil =>
    intro st st' h hP
    simp only [runUrls] at h
    injection h with h'
    rwa [← h']
  | cons u rest ih =>
    intro st st' h hP
    simp only [runUrls] at h
    cases hu : urlStep st u with
    | error e => rw [hu] at h; exact absurd h (by simp)
    | ok st2 =>
      rw [hu] at h
      obtain ⟨parsed, hp, hst2⟩ := urlStep_ok hu
      subst hst2
      exact ih _ st' h (hstep st parsed hP)

theorem extract_ok {urls : List String} {res : ReconResult}
    (h : extract_dirs_files_params urls = .ok res) :
    ∃ stF, runUrls initState urls = .ok stF ∧ res = finalizeState stF := by
  unfold extract_dirs_files_params at h
  cases hr : runUrls initState urls with
  | error e => rw [hr] at h; simp [Except.map] at h
  | ok stF =>
    rw [hr] at h
    simp [Except.map] at h
    exact ⟨stF, rfl, h.symm⟩

/-! ## C10: every accumulated directory ends in a slash -/

theorem getLast?_append_singleton (l : List Char) (c : Char) : (l ++ [c]).getLast? = some c := by
  rw [List.getLast?_append_cons]
  rfl

theorem ends_slash_prefix_candidates (path : String) :
    ∀ x ∈ prefix_dir_candidates path, pyEndsWithChar x '/' = true := by
  intro x hx
  unfold prefix_dir_candidates at hx
  obtain ⟨i, _, rfl⟩ := List.mem_map.mp hx
  unfold pyEndsWithChar
  have hd : ("/" ++ String.intercalate "/" ((path_parts path).take i) ++ "/").data
      = ("/" ++ String.intercalate "/" ((path_parts path).take i)).data ++ ['/'] :=
    String.data_append ..
  rw [hd, getLast?_append_singleton]
  rfl

theorem ends_slash_dir_cleaned (path : String) : pyEndsWithChar (dir_cleaned path) '/' = true := by
  unfold dir_cleaned
  split
  · next h => exact h
  · unfold pyEndsWithChar
    have hd : (path ++ "/").data = path.data ++ ['/'] := String.data_append ..
    rw [hd, getLast?_append_singleton]
    rfl

theorem mem_stepCore_directories {d : String} (st : AggState) (p : UrlParts)
    (h : d ∈ (stepCore st p).directories) :
    d ∈ st.directories ∨ d ∈ prefix_dir_candidates p.path ∨ d = dir_cleaned p.path := by
  by_cases hskip : (p.path = "" ∨ p.path = "/")
  · left
    simpa [stepCore, if_pos hskip] using h
  · rw [stepCore_directories st p hskip] at h
    rcases (mem_setAddAll _ _ _).mp h with h' | h'
    · exact Or.inl h'
    · have hmem := List.mem_of_mem_filter h'
      unfold dir_candidates at hmem
      rcases List.mem_append.mp hmem with h'' | h''
      · exact Or.inr (Or.inl h'')
      · by_cases hf : is_file_path p.path = true
        · rw [if_pos hf] at h''
          exact absurd h'' (List.not_mem_nil d)
        · rw [if_neg hf] at h''
          exact Or.inr (Or.inr (List.mem_singleton.mp h''))

/-- C10 — Every string in the aggregated directory set ends with `/`. -/
theorem c10_directories_end_slash (urls : List String) (res : ReconResult)
    (hres : extract_dirs_files_params urls = .ok res) :
    ∀ d ∈ res.directories, pyEndsWithChar d '/' = true := by
  obtain ⟨stF, hrun, rfl⟩ := extract_ok hres
  intro d hd
  have hd' : d ∈ stF.directories := by
    simpa [finalizeState, mem_py_sorted_set] using hd
  have hinv := runUrls_preserve (fun st => ∀ x ∈ st.directories, pyEndsWithChar x '/' = true)
    (by
      intro st p hP x hx
      rcases mem_stepCore_directories st p hx with h | h | h
      · exact hP x h
      · exact ends_slash_prefix_candidates p.path x h
      · rw [h]; exact ends_slash_dir_cleaned p.path)
    urls initState stF hrun (by intro x hx; exact absurd hx (List.not_mem_nil x))
  exact hinv d hd'

/-- Witness for C10 on a one-URL corpus. -/
theorem c10_directories_end_slash_witness : pyEndsWithChar "/wp-admin/" '/' = true :=
  c10_directories_end_slash ["https://x.com/wp-admin/login.php?redirect=1"]
    ⟨["/wp-admin/"], ["/wp-admin/login.php"], ["redirect"], ["x.com"],
      [("php", ["/wp-admin/login.php"])], ["WordPress"]⟩
    (by decide) "/wp-admin/" (by decide)

/-! ## C6: query keys reach the parameter set unconditionally -/

theorem parse_qs_keys_empty : parse_qs_keys "" = [] := by decide

theorem mem_stepCore_parameters (st : AggState) (p : UrlParts) (a : String) :
    a ∈ (stepCore st p).parameters ↔
      a ∈ st.parameters ∨ (¬(p.path = "" ∨ p.path = "/") ∧ a ∈ parse_qs_keys p.query) := by
  by_cases hskip : (p.path = "" ∨ p.path = "/")
  · simp [stepCore, if_pos hskip, hskip]
  · simp only [stepCore, if_neg hskip, stepPath]
    split_ifs with h1 h2 h3 h4 h5 <;>
      simp_all [mem_setAddAll, parse_qs_keys_empty]

theorem runUrls_parameters_mono (us : List String) (st st' : AggState)
    (h : runUrls st us = .ok st') : ∀ a ∈ st.parameters, a ∈ st'.parameters :=
  fun a ha =>
    runUrls_preserve (fun s => a ∈ s.parameters)
      (fun st p hP => (mem_stepCore_parameters st p a).mpr (Or.inl hP)) us st st' h ha

theorem runUrls_mem_step (us : List String) (st stF : AggState)
    (hrun : runUrls st us = .ok stF) (u : String) (hu : u ∈ us) :
    ∃ st1 parsed, pyUrlparse (pyStripWS u) = .ok parsed ∧
      (∀ a ∈ (stepCore st1 parsed).parameters, a ∈ stF.parameters) := by
  induction us generalizing st with
  | nil => exact absurd hu (List.not_mem_nil u)
  | cons v vs ih =>
    simp only [runUrls] at hrun
    cases hv : urlStep st v with
    | error e => rw [hv] at hrun; exact absurd hrun (by simp)
    | ok st2 =>
      rw [hv] at hrun
      obtain ⟨parsed', hp', hst2⟩ := urlStep_ok hv
      rcases List.mem_cons.mp hu with rfl | hu'
      · refine ⟨st, parsed', hp', ?_⟩
        intro a ha
        rw [← hst2] at ha
        exact runUrls_parameters_mono vs st2 stF hrun a ha
      · exact ih st2 hrun hu'

/-- C6 — For a URL whose parsed path is neither empty nor the root, every
key of its query string ends up in the aggregated parameter set, with no
sensitivity condition attached. -/
theorem c6_parameters (urls : List String) (res : ReconResult) (url : String)
    (parsed : UrlParts)
    (hres : extract_dirs_files_params urls = .ok res) (hu : url ∈ urls)
    (hp : pyUrlparse (pyStripWS url) = .ok parsed)
    (h1 : parsed.path ≠ "") (h2 : parsed.path ≠ "/") :
    ∀ k ∈ parse_qs_keys parsed.query, k ∈ res.parameters := by
  obtain ⟨stF, hrun, rfl⟩ := extract_ok hres
  obtain ⟨st1, parsed', hp', hsub⟩ := runUrls_mem_step urls initState stF hrun url hu
  have heq : parsed' = parsed := by
    rw [hp'] at hp
    exact Except.ok.inj hp
  subst heq
  intro k hk
  have hk2 : k ∈ (stepCore st1 parsed').parameters :=
    (mem_stepCore_parameters st1 parsed' k).mpr (Or.inr ⟨by simp [h1, h2], hk⟩)
  have hk3 := hsub k hk2
  simpa [finalizeState, mem_py_sorted_set] using hk3

/-- Witness for C6 on a one-URL corpus with query `q=1`. -/
theorem c6_parameters_witness :
    "q" ∈ (⟨[], [], ["q"], ["x.com"], [], []⟩ : ReconResult).parameters :=
  c6_parameters ["https://x.com/a/b.html?q=1"] ⟨[], [], ["q"], ["x.com"], [], []⟩
    "https://x.com/a/b.html?q=1" ⟨"https", "x.com", "/a/b.html", "", "q=1", ""⟩
    (by decide) (by decide) (by decide) (by decide) (by decide) "q" (by decide)

/-! ## C9: the files set is partitioned by the category map -/

theorem catAdd_keys (l : List (String × List String)) (c p : String) :
    (catAdd l c p).map Prod.fst =
      if c ∈ l.map Prod.fst then l.map Prod.fst else l.map Prod.fst ++ [c] := by
  induction l with
  | nil => simp [catAdd]
  | cons pr rest ih =>
    obtain ⟨c', s⟩ := pr
    by_cases hc : c' = c
    · subst hc
      simp [catAdd]
    · by_cases hm : c ∈ rest.map Prod.fst <;>
        simp [catAdd, hc, ih, hm, Ne.symm hc]

theorem catAdd_nodup_keys {l : List (String × List String)} {c p : String}
    (h : (l.map Prod.fst).Nodup) : ((catAdd l c p).map Prod.fst).Nodup := by
  rw [catAdd_keys]
  split
  · exact h
  · next hc => simp [List.nodup_append, h, hc]

theorem mem_catAdd_src (l : List (String × List String)) (c p : String) :
    ∀ pr ∈ catAdd l c p, ∀ f ∈ pr.2,
      (pr.1 = c ∧ f = p) ∨ ∃ s, (pr.1, s) ∈ l ∧ f ∈ s := by
  induction l with
  | nil =>
    intro pr hpr f hf
    simp only [catAdd, List.mem_singleton] at hpr
    subst hpr
    simp only [List.mem_singleton] at hf
    exact Or.inl ⟨rfl, hf⟩
  | cons pr0 rest ih =>
    obtain ⟨c', s⟩ := pr0
    intro pr hpr f hf
    simp only [catAdd] at hpr
    by_cases hc : c' = c
    · subst hc
      rw [if_pos rfl] at hpr
      rcases List.mem_cons.mp hpr with rfl | hmem
      · rcases (mem_setAdd f p s).mp hf with rfl | hfs
        · exact Or.inl ⟨rfl, rfl⟩
        · exact Or.inr ⟨s, List.mem_cons_self _ _, hfs⟩
      · exact Or.inr ⟨pr.2, List.mem_cons_of_mem _ hmem, hf⟩
    · rw [if_neg hc] at hpr
      rcases List.mem_cons.mp hpr with rfl | hmem
      · exact Or.inr ⟨s, List.mem_cons_self _ _, hf⟩
      · rcases ih pr hmem f hf with hl | ⟨s', hs', hfs'⟩
        · exact Or.inl hl
        · exact Or.inr ⟨s', List.mem_cons_of_mem _ hs', hfs'⟩

theorem catAdd_mem_new (l : List (String × List String)) (c p : String) :
    ∃ pr, pr ∈ catAdd l c p ∧ pr.1 = c ∧ p ∈ pr.2 := by
  induction l with
  | nil => exact ⟨(c, [p]), by simp [catAdd], rfl, by simp⟩
  | cons pr0 rest ih =>
    obtain ⟨c', s⟩ := pr0
    by_cases hc : c' = c
    · subst hc
      refine ⟨(c', setAdd s p), ?_, rfl, (mem_setAdd p p s).mpr (Or.inl rfl)⟩
      simp [catAdd]
    · obtain ⟨pr, hpr, h1, h2⟩ := ih
      refine ⟨pr, ?_, h1, h2⟩
      simp only [catAdd]
      rw [if_neg hc]
      exact List.mem_cons_of_mem _ hpr

theorem catAdd_mem_old (l : List (String × List String)) (c p : String) :
    ∀ pr ∈ l, ∀ f ∈ pr.2,
      ∃ pr', pr' ∈ catAdd l c p ∧ pr'.1 = pr.1 ∧ f ∈ pr'.2 := by
  induction l with
  | nil => intro pr hpr; exact absurd hpr (List.not_mem_nil pr)
  | cons pr0 rest ih =>
    obtain ⟨c', s⟩ := pr0
    intro pr hpr f hf
    rcases List.mem_cons.mp hpr with rfl | hmem
    · by_cases hc : c' = c
      · subst hc
        refine ⟨(c', setAdd s p), ?_, rfl, (mem_setAdd f p s).mpr (Or.inr hf)⟩
        simp [catAdd]
      · refine ⟨(c', s), ?_, rfl, hf⟩
        simp only [catAdd]
        rw [if_neg hc]
        exact List.mem_cons_self _ _
    · by_cases hc : c' = c
      · subst hc
        refine ⟨pr, ?_, rfl, hf⟩
        have hcat : catAdd ((c', s) :: rest) c' p = (c', setAdd s p) :: rest := by
          simp [catAdd]
        rw [hcat]
        exact List.mem_cons_of_mem _ hmem
      · obtain ⟨pr', hpr', h1, h2⟩ := ih pr hmem f hf
        refine ⟨pr', ?_, h1, h2⟩
        simp only [catAdd]
        rw [if_neg hc]
        exact List.mem_cons_of_mem _ hpr'

/-- The running relation between the file set and the category map: unique
keys, every categorised file is a correctly categorised member of the file
set, and every file is categorised somewhere. -/
def CatInv (files : List String) (cat : List (String × List String)) : Prop :=
  ((cat.map Prod.fst).Nodup) ∧
  (∀ pr ∈ cat, ∀ f ∈ pr.2, f ∈ files ∧ categorize_file f = pr.1) ∧
  (∀ f ∈ files, ∃ pr ∈ cat, f ∈ pr.2)

theorem catInv_add (files : List String) (cat : List (String × List String)) (path : String)
    (h : CatInv files cat) :
    CatInv (setAdd files path) (catAdd cat (categorize_file path) path) := by
  obtain ⟨hnd, hfwd, hbwd⟩ := h
  refine ⟨catAdd_nodup_keys hnd, ?_, ?_⟩
  · intro pr hpr f hf
    rcases mem_catAdd_src cat (categorize_file path) path pr hpr f hf with ⟨hc, rfl⟩ | ⟨s, hs, hfs⟩
    · exact ⟨(mem_setAdd f f files).mpr (Or.inl rfl), hc.symm⟩
    · have h2 := hfwd (pr.1, s) hs f hfs
      exact ⟨(mem_setAdd f path files).mpr (Or.inr h2.1), h2.2⟩
  · intro f hf
    rcases (mem_setAdd f path files).mp hf with rfl | hf'
    · obtain ⟨pr, hpr, _, h2⟩ := catAdd_mem_new cat (categorize_file f) f
      exact ⟨pr, hpr, h2⟩
    · obtain ⟨pr, hpr, hfpr⟩ := hbwd f hf'
      obtain ⟨pr', hpr', _, h2⟩ := catAdd_mem_old cat (categorize_file path) path pr hpr f hfpr
      exact ⟨pr', hpr', h2⟩

theorem stepCore_catInv (st : AggState) (p : UrlParts)
    (h : CatInv st.files st.categorized) :
    CatInv (stepCore st p).files (stepCore st p).categorized := by
  by_cases hskip : (p.path = "" ∨ p.path = "/")
  · simpa [stepCore, if_pos hskip] using h
  · simp only [stepCore, if_neg hskip, stepPath]
    split_ifs <;> first
      | exact catInv_add st.files st.categorized p.path h
      | exact h

theorem keys_nodup_inj (l : List (String × List String))
    (hnd : (l.map Prod.fst).Nodup) :
    ∀ pr ∈ l, ∀ pr' ∈ l, pr.1 = pr'.1 → pr = pr' := by
  induction l with
  | nil => intro pr hpr; exact absurd hpr (List.not_mem_nil pr)
  | cons pr0 rest ih =>
    simp only [List.map_cons, List.nodup_cons] at hnd
    intro pr hpr pr' hpr' hkey
    rcases List.mem_cons.mp hpr with rfl | hmem
    · rcases List.mem_cons.mp hpr' with rfl | hmem'
      · rfl
      · exact absurd (hkey ▸ List.mem_map_of_mem Prod.fst hmem') hnd.1
    · rcases List.mem_cons.mp hpr' with rfl | hmem'
      · exact absurd (hkey ▸ List.mem_map_of_mem Prod.fst hmem) hnd.1
      · exact ih hnd.2 pr hmem pr' hmem' hkey

/-- C9 — The aggregated files are exactly the union of the per-category
sets; the categories are uniquely keyed, every grouped file carries its
category, and distinct entries are disjoint. -/
theorem c9_files_partition (urls : List String) (res : ReconResult)
    (hres : extract_dirs_files_params urls = .ok res) :
    (∀ f, f ∈ res.files ↔ ∃ pr ∈ res.categorized, f ∈ pr.2) ∧
    ((res.categorized.map Prod.fst).Nodup) ∧
    (∀ pr ∈ res.categorized, ∀ f ∈ pr.2, categorize_file f = pr.1) ∧
    (∀ pr ∈ res.categorized, ∀ pr' ∈ res.categorized, pr ≠ pr' →
      ∀ f, ¬(f ∈ pr.2 ∧ f ∈ pr'.2)) := by
  obtain ⟨stF, hrun, rfl⟩ := extract_ok hres
  have hinv : CatInv stF.files stF.categorized :=
    runUrls_preserve (fun st => CatInv st.files st.categorized) stepCore_catInv
      urls initState stF hrun
      ⟨List.nodup_nil, fun pr hpr => absurd hpr (List.not_mem_nil pr),
        fun f hf => absurd hf (List.not_mem_nil f)⟩
  obtain ⟨hnd, hfwd, hbwd⟩ := hinv
  refine ⟨?_, hnd, ?_, ?_⟩
  · intro f
    constructor
    · intro hf
      have hf' : f ∈ stF.files := by
        simpa [finalizeState, mem_py_sorted_set] using hf
      exact hbwd f hf'
    · intro ⟨pr, hpr, hfpr⟩
      have hf' : f ∈ stF.files := (hfwd pr hpr f hfpr).1
      simpa [finalizeState, mem_py_sorted_set] using hf'
  · exact fun pr hpr f hf => (hfwd pr hpr f hf).2
  · intro pr hpr pr' hpr' hne f ⟨hf, hf'⟩
    have h1 := (hfwd pr hpr f hf).2
    have h2 := (hfwd pr' hpr' f hf').2
    exact hne (keys_nodup_inj stF.categorized hnd pr hpr pr' hpr' (h1 ▸ h2))

/-- Witness for C9: the union direction at the file of a one-URL corpus. -/
theorem c9_files_partition_witness :
    "/wp-admin/login.php" ∈
        (⟨["/wp-admin/"], ["/wp-admin/login.php"], ["redirect"], ["x.com"],
          [("php", ["/wp-admin/login.php"])], ["WordPress"]⟩ : ReconResult).files ↔
      ∃ pr ∈ (⟨["/wp-admin/"], ["/wp-admin/login.php"], ["redirect"], ["x.com"],
          [("php", ["/wp-admin/login.php"])], ["WordPress"]⟩ : ReconResult).categorized,
        "/wp-admin/login.php" ∈ pr.2 :=
  (c9_files_partition ["https://x.com/wp-admin/login.php?redirect=1"]
    ⟨["/wp-admin/"], ["/wp-admin/login.php"], ["redirect"], ["x.com"],
      [("php", ["/wp-admin/login.php"])], ["WordPress"]⟩ (by decide)).1 "/wp-admin/login.php"

/-! ## C8: when URL decomposition raises -/

theorem mem_splitScheme_snd (l : List Char) (c : Char) (h : c ∈ (splitScheme l).2) :
    c ∈ l := by
  cases hsf : splitFirst ':' l with
  | none => simp only [splitScheme, hsf] at h; exact h
  | some ab =>
    obtain ⟨before, after⟩ := ab
    cases before with
    | nil => simp only [splitScheme, hsf] at h; exact h
    | cons b bs =>
      simp only [splitScheme, hsf] at h
      by_cases hcond : (isAsciiAlpha b && (b :: bs).all isSchemeChar) = true
      · rw [if_pos hcond] at h
        exact (splitFirst_sub ':' l (b :: bs) after hsf).2 c h
      · rw [if_neg hcond] at h
        exact h

theorem mem_sanitize (url : String) (c : Char) (h : c ∈ sanitizeUrl url.data) :
    c ∈ url.data := by
  unfold sanitizeUrl at h
  exact mem_of_mem_dropWhile (List.mem_of_mem_filter h)

theorem mem_rawNetloc (url : String) (c : Char) (h : c ∈ rawNetloc url) : c ∈ url.data := by
  unfold rawNetloc netlocSplit at h
  have hsub : c ∈ (rawSchemeSplit url).2 := by
    split at h
    · next rest heq =>
      rw [heq]
      exact List.mem_cons_of_mem _ (List.mem_cons_of_mem _ (mem_of_mem_takeWhile h))
    · next => exact absurd h (List.not_mem_nil c)
  unfold rawSchemeSplit at hsub
  exact mem_sanitize url c (mem_splitScheme_snd (sanitizeUrl url.data) c hsub)

/-- C8 (amended) — Decomposition never raises on an all-ASCII line free
of square brackets: on such a line neither the unbalanced-bracket check
nor CPython's checks for non-ASCII or bracketed authorities can fire. -/
theorem c8_ascii_no_brackets_no_raise (url : String)
    (h : ∀ c ∈ url.data, c.toNat ≤ 127 ∧ c ≠ '[' ∧ c ≠ ']') :
    ∃ p, pyUrlparse url = .ok p := by
  have hni : ¬(('[' ∈ rawNetloc url ∧ ']' ∉ rawNetloc url) ∨
      (']' ∈ rawNetloc url ∧ '[' ∉ rawNetloc url)) := by
    rintro (⟨hin, _⟩ | ⟨hin, _⟩)
    · exact (h '[' (mem_rawNetloc url '[' hin)).2.1 rfl
    · exact (h ']' (mem_rawNetloc url ']' hin)).2.2 rfl
  simp only [pyUrlparse, if_neg hni]
  exact ⟨_, rfl⟩

/-- Witness for the amended C8 on an ASCII bracket-free line. -/
theorem c8_ascii_no_brackets_no_raise_witness : ∃ p, pyUrlparse "https://x.com/a" = .ok p :=
  c8_ascii_no_brackets_no_raise "https://x.com/a" (by decide)

/-- Counterexample to C8 as stated: the line `http://[a` makes `urlparse`
raise `ValueError: Invalid IPv6 URL`, and that single line aborts the
whole batch, well-formed later lines included. -/
theorem c8_counterexample :
    extract_dirs_files_params ["http://[a", "https://x.com/admin"] =
      .error "Invalid IPv6 URL" := by decide

/-! ## The wordlist store (`read_existing_set` / `write_updated_list`)

A persisted wordlist file is modelled by its list of lines; the physical
content is the lines joined by single newlines, exactly what
`"\n".join(combined)` writes, so line list and file content determine one
another for newline-free items.  `read_existing_set` returns the set of
stripped non-empty lines (here a list whose members are that set), and an
absent file reads as the empty set. -/

def read_existing_set : Option (List String) → List String
  | none => []
  | some lines => (lines.map pyStripWS).filter (fun l => l ≠ "")

/-- `write_updated_list`: the new line list of the store after merging
`new_items` with the existing set, sorting and deduplicating. -/
def write_updated_list (store : Option (List String)) (new_items : List String) :
    List String :=
  py_sorted_set (read_existing_set store ++ new_items)

/-- An item survives the read-back of a store line unchanged: non-empty,
equal to its own whitespace strip, and newline-free (the latter makes the
line model coincide with the physical file). -/
def cleanItem (s : String) : Prop := s ≠ "" ∧ pyStripWS s = s ∧ '\n' ∉ s.data

instance (s : String) : Decidable (cleanItem s) := by unfold cleanItem; infer_instance

theorem read_clean (l : List String) (h : ∀ x ∈ l, pyStripWS x = x ∧ x ≠ "") :
    read_existing_set (some l) = l := by
  have hmap : l.map pyStripWS = l := by
    rw [List.map_congr_left (fun a ha => (h a ha).1)]
    exact List.map_id l
  show (l.map pyStripWS).filter (fun x => x ≠ "") = l
  rw [hmap, List.filter_eq_self]
  intro a ha
  simp [(h a ha).2]

theorem write_updated_list_none (A : List String) :
    write_updated_list none A = py_sorted_set A := by
  simp [write_updated_list, read_existing_set]

theorem write_some_sorted (A B : List String)
    (hA : ∀ x ∈ A, pyStripWS x = x ∧ x ≠ "") :
    write_updated_list (some (py_sorted_set A)) B = py_sorted_set (A ++ B) := by
  unfold write_updated_list
  rw [read_clean (py_sorted_set A) (fun x hx => hA x ((mem_py_sorted_set x A).mp hx))]
  apply py_sorted_set_ext
  intro a
  simp [mem_py_sorted_set]

/-- C2 (amended) — For clean items, writing `A` then `B` (or `B` then `A`)
into a fresh store leaves exactly the sorted, duplicate-free union. -/
theorem c2_merge_union (A B : List String) (h : ∀ x ∈ A ++ B, cleanItem x) :
    write_updated_list (some (write_updated_list none A)) B = py_sorted_set (A ++ B) ∧
    write_updated_list (some (write_updated_list none B)) A = py_sorted_set (A ++ B) ∧
    (py_sorted_set (A ++ B)).Nodup ∧
    List.Sorted pyLe (py_sorted_set (A ++ B)) := by
  have hA : ∀ x ∈ A, pyStripWS x = x ∧ x ≠ "" := fun x hx =>
    ⟨(h x (List.mem_append_left B hx)).2.1, (h x (List.mem_append_left B hx)).1⟩
  have hB : ∀ x ∈ B, pyStripWS x = x ∧ x ≠ "" := fun x hx =>
    ⟨(h x (List.mem_append_right A hx)).2.1, (h x (List.mem_append_right A hx)).1⟩
  refine ⟨?_, ?_, py_sorted_set_nodup _, py_sorted_set_sorted _⟩
  · rw [write_updated_list_none, write_some_sorted A B hA]
  · rw [write_updated_list_none, write_some_sorted B A hB]
    apply py_sorted_set_ext
    intro a
    simp [or_comm]

/-- Witness for the amended C2 at `A = {"a"}`, `B = {"b"}`. -/
theorem c2_merge_union_witness :
    write_updated_list (some (write_updated_list none ["a"])) ["b"] =
        py_sorted_set (["a"] ++ ["b"]) ∧
    write_updated_list (some (write_updated_list none ["b"])) ["a"] =
        py_sorted_set (["a"] ++ ["b"]) ∧
    (py_sorted_set (["a"] ++ ["b"])).Nodup ∧
    List.Sorted pyLe (py_sorted_set (["a"] ++ ["b"])) :=
  c2_merge_union ["a"] ["b"] (by decide)

/-- Counterexample to C2 as stated: for `A = {" a"}` (a leading space) and
`B = {"b"}` the second write does not contain the sorted union `A ∪ B`
(the read-back strips `" a"` to `"a"`), and the final content depends on
the write order. -/
theorem c2_counterexample :
    write_updated_list (some (write_updated_list none [" a"])) ["b"] ≠
        py_sorted_set ([" a"] ++ ["b"]) ∧
    write_updated_list (some (write_updated_list none [" a"])) ["b"] ≠
        write_updated_list (some (write_updated_list none ["b"])) [" a"] := by
  exact ⟨by decide, by decide⟩

/-- C3 (amended) — For clean items, a second write of the same set is a
no-op. -/
theorem c3_idempotent (A : List String) (h : ∀ x ∈ A, cleanItem x) :
    write_updated_list (some (write_updated_list none A)) A = write_updated_list none A := by
  have hA : ∀ x ∈ A, pyStripWS x = x ∧ x ≠ "" := fun x hx =>
    ⟨(h x hx).2.1, (h x hx).1⟩
  rw [write_updated_list_none, write_some_sorted A A hA]
  apply py_sorted_set_ext
  intro a
  simp

/-- Witness for the amended C3 at `A = {"a"}`. -/
theorem c3_idempotent_witness :
    write_updated_list (some (write_updated_list none ["a"])) ["a"] =
      write_updated_list none ["a"] :=
  c3_idempotent ["a"] (by decide)

/-- Counterexample to C3 as stated: with `A = {" a"}` the second write
changes the store (`[" a"]` becomes `[" a", "a"]`). -/
theorem c3_counterexample :
    write_updated_list (some (write_updated_list none [" a"])) [" a"] ≠
      write_updated_list none [" a"] := by decide

/-! ## C7: the top-level driver on a missing input file

File-system state is a finite map from path to line list plus the set of
directories created with `os.makedirs`; `os.path.exists` consults both.
`run_passive_recon` prints the banner (presentation only, not modelled),
aborts with a message when the input path does not exist, and otherwise
reads the URL lines, aggregates them (a `ValueError` escaping `urlparse`
propagates), creates `output/`, and merge-writes the wordlists. -/

structure FS where
  files : List (String × List String)
  madeDirs : List String
deriving DecidableEq

def fsRead (fs : FS) (p : String) : Option (List String) := List.lookup p fs.files

def upsertLines : List (String × List String) → String → List String → List (String × List String)
  | [], p, ls => [(p, ls)]
  | (q, old) :: rest, p, ls =>
    if q = p then (q, ls) :: rest else (q, old) :: upsertLines rest p ls

def fsWrite (fs : FS) (p : String) (lines : List String) : FS :=
  { fs with files := upsertLines fs.files p lines }

def os_path_exists (fs : FS) (p : String) : Bool :=
  (fsRead fs p).isSome || fs.madeDirs.contains p

/-- `write_updated_list(filepath, new_items)` acting on the file system. -/
def write_updated_list_fs (fs : FS) (p : String) (new_items : List String) : FS :=
  fsWrite fs p (write_updated_list (fsRead fs p) new_items)

/-- `os.makedirs("output", exist_ok=True)`. -/
def os_makedirs_output (fs : FS) : FS :=
  if "output" ∈ fs.madeDirs then fs else { fs with madeDirs := "output" :: fs.madeDirs }

/-- `save_all_wordlists(categorized_files)`: one merge-write per category. -/
def save_all_wordlists (fs : FS) (cat : List (String × List String)) : FS :=
  cat.foldl (fun acc pr => write_updated_list_fs acc ("output/" ++ pr.1 ++ ".txt") pr.2) fs

inductive RunOutcome where
  | missingInput : RunOutcome
  | completed : RunOutcome
deriving DecidableEq

/-- `run_passive_recon(input_path)`: the returned outcome records whether
the missing-file message was printed or the run completed; the summary
printing is presentation only. -/
def run_passive_recon (fs : FS) (input_path : String) : Except String (FS × RunOutcome) :=
  if os_path_exists fs input_path then
    let content := (fsRead fs input_path).getD []
    let urls := (content.map pyStripWS).filter (fun l => l ≠ "")
    match extract_dirs_files_params urls with
    | .error e => .error e
    | .ok res =>
      let fs1 := os_makedirs_output fs
      let fs2 := write_updated_list_fs fs1 "output/dirs.txt" res.directories
      let fs3 := write_updated_list_fs fs2 "output/files.txt" res.files
      let fs4 := write_updated_list_fs fs3 "output/params.txt" res.parameters
      let fs5 := save_all_wordlists fs4 res.categorized
      .ok (fs5, .completed)
  else
    .ok (fs, .missingInput)

/-- C7 — When the input path does not exist the driver reports the
missing file and returns: no exception, no output file written, no output
directory created (the file system is returned unchanged). -/
theorem c7_missing_input (fs : FS) (input_path : String)
    (h : os_path_exists fs input_path = false) :
    run_passive_recon fs input_path = .ok (fs, RunOutcome.missingInput) := by
  have hni : ¬(os_path_exists fs input_path = true) := by simp [h]
  simp only [run_passive_recon, if_neg hni]

/-- Witness for C7 on an empty file system. -/
theorem c7_missing_input_witness :
    run_passive_recon ⟨[], []⟩ "urls.txt" = .ok (⟨[], []⟩, RunOutcome.missingInput) :=
  c7_missing_input ⟨[], []⟩ "urls.txt" (by decide)
